import Mathlib

/-!
Verification of the enum-extraction pipeline (scripts/extract_enums.py).

The script is pure string processing plus list/dict assembly, so it is
embedded shallowly: Python strings become Lean `String`/`List Char`,
dicts become association lists (keys are unique in the source, coming
from JSON objects and from the filesystem's set of service names), and
the fallible per-service loader becomes an `Option`.  Character case
functions model Python's `str.upper`/`str.lower`/`str.capitalize` on
the ASCII range, which is the only range those functions ever see here:
every character reaching them has first been filtered to ASCII
alphanumerics (ConventionA words; ConventionB after its character
filter), service identifiers being ASCII directory names.

The two run-splitting helpers are written with an explicit fuel
argument (initialized to the list length) so that they are structural
and evaluate inside the kernel; the lemmas `reSubNonAlnum_cons` and
`runsBy_cons` recover the natural recursion equations.
-/

/-- A character matched by the regex class `[a-zA-Z0-9]` in the source. -/
def isAsciiAlnum (c : Char) : Bool :=
  (97 ≤ c.toNat && c.toNat ≤ 122) || (65 ≤ c.toNat && c.toNat ≤ 90) ||
    (48 ≤ c.toNat && c.toNat ≤ 57)

/-- Whitespace recognized by Python `str.split()` restricted to ASCII
(space, tab, newline, vertical tab, form feed, carriage return).  In the
source, `split` is applied only to the output of the regex substitution
`re.sub(r"[^a-zA-Z0-9]+", " ", value)`, where the only whitespace
character that can occur is a plain space. -/
def isPySpace (c : Char) : Bool :=
  c.toNat == 32 || c.toNat == 9 || c.toNat == 10 || c.toNat == 11 ||
    c.toNat == 12 || c.toNat == 13

theorem length_dropWhile_le (p : Char → Bool) (l : List Char) :
    (l.dropWhile p).length ≤ l.length := by
  induction l with
  | nil => exact Nat.le_refl 0
  | cons c cs ih =>
    by_cases h : p c
    · simp only [List.dropWhile, h]
      exact Nat.le_trans ih (Nat.le_succ _)
    · simp only [List.dropWhile, h]
      exact Nat.le_refl _

/-- Fuel-indexed worker for `runsBy`. -/
def runsByF (p : Char → Bool) : Nat → List Char → List (List Char)
  | _, [] => []
  | 0, _ :: _ => []
  | fuel + 1, c :: cs =>
    if p c then (c :: cs.takeWhile p) :: runsByF p fuel (cs.dropWhile p)
    else runsByF p fuel cs

/-- The maximal runs of characters satisfying `p`, in order; characters
not satisfying `p` act as separators and are discarded.  This is the
shape shared by Python `str.split()` (with `p` = "not whitespace") and
by extracting the alphanumeric words of a string. -/
def runsBy (p : Char → Bool) (l : List Char) : List (List Char) :=
  runsByF p l.length l

/-- Fuel-indexed worker for `reSubNonAlnum`. -/
def reSubF : Nat → List Char → List Char
  | _, [] => []
  | 0, _ :: _ => []
  | fuel + 1, c :: cs =>
    if isAsciiAlnum c then c :: reSubF fuel cs
    else ' ' :: reSubF fuel (cs.dropWhile (fun d => !isAsciiAlnum d))

/-- `re.sub(r"[^a-zA-Z0-9]+", " ", value)` on the character list of
`value`: every maximal run of non-alphanumeric characters becomes a
single space. -/
def reSubNonAlnum (l : List Char) : List Char :=
  reSubF l.length l

theorem runsByF_congr (p : Char → Bool) :
    ∀ fuel fuel' l, l.length ≤ fuel → l.length ≤ fuel' →
      runsByF p fuel l = runsByF p fuel' l := by
  intro fuel
  induction fuel with
  | zero =>
    intro fuel' l h h'
    have hl : l = [] := List.length_eq_zero.mp (Nat.le_zero.mp h)
    subst hl
    cases fuel' <;> simp [runsByF]
  | succ n ih =>
    intro fuel' l h h'
    cases l with
    | nil => cases fuel' <;> simp [runsByF]
    | cons c cs =>
      cases fuel' with
      | zero => simp at h'
      | succ m =>
        simp only [List.length_cons] at h h'
        have hcs : cs.length ≤ n := by omega
        have hcs' : cs.length ≤ m := by omega
        cases hc : p c with
        | false => simpa [runsByF, hc] using ih m cs hcs hcs'
        | true =>
          have hd : (cs.dropWhile p).length ≤ n :=
            Nat.le_trans (length_dropWhile_le p cs) hcs
          have hd' : (cs.dropWhile p).length ≤ m :=
            Nat.le_trans (length_dropWhile_le p cs) hcs'
          simpa [runsByF, hc] using ih m (cs.dropWhile p) hd hd'

theorem reSubF_congr :
    ∀ fuel fuel' l, l.length ≤ fuel → l.length ≤ fuel' →
      reSubF fuel l = reSubF fuel' l := by
  intro fuel
  induction fuel with
  | zero =>
    intro fuel' l h h'
    have hl : l = [] := List.length_eq_zero.mp (Nat.le_zero.mp h)
    subst hl
    cases fuel' <;> simp [reSubF]
  | succ n ih =>
    intro fuel' l h h'
    cases l with
    | nil => cases fuel' <;> simp [reSubF]
    | cons c cs =>
      cases fuel' with
      | zero => simp at h'
      | succ m =>
        simp only [List.length_cons] at h h'
        have hcs : cs.length ≤ n := by omega
        have hcs' : cs.length ≤ m := by omega
        cases hc : isAsciiAlnum c with
        | true => simpa [reSubF, hc] using ih m cs hcs hcs'
        | false =>
          have hd : (cs.dropWhile (fun d => !isAsciiAlnum d)).length ≤ n :=
            Nat.le_trans (length_dropWhile_le _ cs) hcs
          have hd' : (cs.dropWhile (fun d => !isAsciiAlnum d)).length ≤ m :=
            Nat.le_trans (length_dropWhile_le _ cs) hcs'
          simpa [reSubF, hc] using ih m _ hd hd'

theorem runsBy_nil (p : Char → Bool) : runsBy p [] = [] := rfl

theorem runsBy_cons (p : Char → Bool) (c : Char) (cs : List Char) :
    runsBy p (c :: cs) =
      if p c then (c :: cs.takeWhile p) :: runsBy p (cs.dropWhile p)
      else runsBy p cs := by
  show runsByF p (cs.length + 1) (c :: cs) = _
  cases hc : p c with
  | true =>
    simp only [runsByF, hc, if_true]
    have := runsByF_congr p cs.length (cs.dropWhile p).length (cs.dropWhile p)
      (length_dropWhile_le p cs) (Nat.le_refl _)
    rw [this]
    rfl
  | false =>
    simp only [runsByF, hc, Bool.false_eq_true, if_false]
    rfl

theorem reSubNonAlnum_nil : reSubNonAlnum [] = [] := rfl

theorem reSubNonAlnum_cons (c : Char) (cs : List Char) :
    reSubNonAlnum (c :: cs) =
      if isAsciiAlnum c then c :: reSubNonAlnum cs
      else ' ' :: reSubNonAlnum (cs.dropWhile (fun d => !isAsciiAlnum d)) := by
  show reSubF (cs.length + 1) (c :: cs) = _
  cases hc : isAsciiAlnum c with
  | true =>
    simp only [reSubF, hc, if_true]
    rfl
  | false =>
    simp only [reSubF, hc, Bool.false_eq_true, if_false]
    have := reSubF_congr cs.length (cs.dropWhile (fun d => !isAsciiAlnum d)).length
      (cs.dropWhile (fun d => !isAsciiAlnum d))
      (length_dropWhile_le _ cs) (Nat.le_refl _)
    rw [this]
    rfl

/-- Python `str.split()` (no separator argument): the maximal runs of
non-whitespace characters. -/
def pySplit (l : List Char) : List (List Char) :=
  runsBy (fun c => !isPySpace c) l

/-- `word[0].upper() + word[1:].lower()` from `to_go_const_name`. -/
def capWord : List Char → List Char
  | [] => []
  | c :: cs => c.toUpper :: cs.map Char.toLower

/-- Python `str.capitalize()` (ASCII model): first character uppercased,
the rest lowercased. -/
def pyCapitalize (s : String) : String :=
  match s.data with
  | [] => ""
  | c :: cs => String.mk (c.toUpper :: cs.map Char.toLower)

/-- `capitalize_service` from the source: a fixed special-case table,
falling back on `str.capitalize`. -/
def capitalize_service (service : String) : String :=
  if service = "ec2" then "Ec2"
  else if service = "ecs" then "Ecs"
  else if service = "rds" then "Rds"
  else if service = "s3" then "S3"
  else if service = "acm" then "Acm"
  else if service = "elbv2" then "Elbv2"
  else pyCapitalize service

/-- The contribution of the raw value to a ConventionA identifier: the
words of `re.sub(r"[^a-zA-Z0-9]+", " ", value).split()`, each passed
through `capWord` and concatenated. -/
def goValuePart (value : String) : String :=
  String.mk (List.flatten ((pySplit (reSubNonAlnum value.data)).map capWord))

/-- `to_go_const_name` from the source: capitalized service, then the
shape name verbatim, then the case-normalized words of the value. -/
def to_go_const_name (service enum_name value : String) : String :=
  capitalize_service service ++ enum_name ++ goValuePart value

/-- `value.replace(".", "_").replace("-", "_")`, characterwise. -/
def dotDash (c : Char) : Char :=
  if c = '.' || c = '-' then '_' else c

/-- A character matched by the regex class `[a-zA-Z0-9_]` in the source. -/
def isWordChar (c : Char) : Bool :=
  isAsciiAlnum c || c == '_'

/-- `to_python_const_name` from the source: dots and hyphens to
underscores, all other non-word characters removed, uppercased, and a
leading underscore added when the result starts with a digit. -/
def to_python_const_name (value : String) : String :=
  let name1 := value.data.map dotDash
  let name2 := name1.filter isWordChar
  let name3 := name2.map Char.toUpper
  match name3 with
  | [] => ""
  | c :: cs => if c.isDigit then String.mk ('_' :: c :: cs) else String.mk (c :: cs)

example : to_go_const_name "lambda" "Runtime" "python3.12" = "LambdaRuntimePython312" := by decide
example : to_go_const_name "s3" "StorageClass" "STANDARD_IA" = "S3StorageClassStandardIa" := by decide
example : to_go_const_name "ec2" "InstanceType" "t2.micro" = "Ec2InstanceTypeT2Micro" := by decide
example : to_python_const_name "python3.12" = "PYTHON3_12" := by decide
example : to_python_const_name "PAY_PER_REQUEST" = "PAY_PER_REQUEST" := by decide
example : to_python_const_name "t2.micro" = "T2_MICRO" := by decide
example : to_python_const_name "1x" = "_1X" := by decide
example : to_python_const_name "-" = "_" := by decide
example : to_python_const_name "..." = "___" := by decide
example : to_python_const_name "()" = "" := by decide
example : to_go_const_name "s3" "X" "..." = "S3X" := by decide

/-- Python string comparison on character lists: lexicographic by code
point. -/
def lexLe : List Char → List Char → Bool
  | [], _ => true
  | _ :: _, [] => false
  | a :: as, b :: bs =>
    if a.toNat < b.toNat then true
    else if b.toNat < a.toNat then false
    else lexLe as bs

/-- Python `<=` on strings. -/
def strLe (a b : String) : Bool := lexLe a.data b.data

theorem lexLe_total : ∀ a b : List Char, lexLe a b = true ∨ lexLe b a = true := by
  intro a
  induction a with
  | nil => intro b; left; rfl
  | cons x xs ih =>
    intro b
    cases b with
    | nil => right; rfl
    | cons y ys =>
      simp only [lexLe]
      rcases Nat.lt_trichotomy x.toNat y.toNat with h | h | h
      · left; simp [h]
      · rcases ih ys with hl | hr
        · left; simp [h, hl]
        · right; simp [h, hr]
      · right; simp [h]

theorem lexLe_trans :
    ∀ a b c : List Char, lexLe a b = true → lexLe b c = true → lexLe a c = true := by
  intro a
  induction a with
  | nil => intro b c _ _; rfl
  | cons x xs ih =>
    intro b c hab hbc
    cases b with
    | nil => simp [lexLe] at hab
    | cons y ys =>
      cases c with
      | nil => simp [lexLe] at hbc
      | cons z zs =>
        simp only [lexLe] at hab hbc ⊢
        rcases Nat.lt_trichotomy x.toNat y.toNat with h1 | h1 | h1
        · rcases Nat.lt_trichotomy y.toNat z.toNat with h2 | h2 | h2
          · simp [show x.toNat < z.toNat by omega]
          · simp [show x.toNat < z.toNat by omega]
          · simp [h2, show ¬ y.toNat < z.toNat by omega] at hbc
        · rcases Nat.lt_trichotomy y.toNat z.toNat with h2 | h2 | h2
          · simp [show x.toNat < z.toNat by omega]
          · have hxz : ¬ x.toNat < z.toNat := by omega
            have hzx : ¬ z.toNat < x.toNat := by omega
            simp only [h1, Nat.lt_irrefl, if_false] at hab
            simp only [h2, Nat.lt_irrefl, if_false] at hbc
            simp [hxz, hzx]
            exact ih ys zs hab hbc
          · simp [h2, show ¬ y.toNat < z.toNat by omega] at hbc
        · simp [h1, show ¬ x.toNat < y.toNat by omega] at hab

theorem strLe_total (a b : String) : strLe a b = true ∨ strLe b a = true :=
  lexLe_total a.data b.data

theorem strLe_trans (a b c : String) :
    strLe a b = true → strLe b c = true → strLe a c = true :=
  lexLe_trans a.data b.data c.data

/-- Ordering of association-list entries by their key, as Python's
`sorted(d.items())` orders them (dict keys are unique, so the tuple
comparison never reaches the second component). -/
def keyLe {α : Type} (a b : String × α) : Prop := strLe a.1 b.1 = true

instance {α : Type} : DecidableRel (@keyLe α) :=
  fun a b => instDecidableEqBool (strLe a.1 b.1) true

instance {α : Type} : IsTotal (String × α) keyLe :=
  ⟨fun a b => strLe_total a.1 b.1⟩

instance {α : Type} : IsTrans (String × α) keyLe :=
  ⟨fun a b c => strLe_trans a.1 b.1 c.1⟩

/-- `sorted(d.items())` for a string-keyed dict rendered as an
association list: a stable sort by key.  (Every stable sort agrees with
Python's Timsort, so insertion sort is a faithful model.) -/
def sortByKey {α : Type} (l : List (String × α)) : List (String × α) :=
  List.insertionSort keyLe l

/-- One shape definition, reduced to the two fields the script reads:
`shape_def.get("type")` and the optional `"enum"` list. -/
structure ShapeDef where
  type : Option String
  enum : Option (List String)
deriving DecidableEq

/-- The per-service scan of `extract_all_enums`: keep a shape iff its
type is `"string"`, it has an `"enum"` key, and the enum list has at
most 500 entries. -/
def extractService (shapes : List (String × ShapeDef)) : List (String × List String) :=
  shapes.filterMap fun p =>
    if p.2.type = some "string" then
      match p.2.enum with
      | some vs => if vs.length ≤ 500 then some (p.1, vs) else none
      | none => none
    else none

/-- `extract_all_enums` over an abstract catalog: each service comes
with `none` when its `service-2` model fails to load (the `except`
branch skips it) and with its shape dictionary otherwise.  A service
reaches the result only if at least one of its shapes is kept (the
`defaultdict` only materializes a key on first assignment). -/
def extract_all_enums (catalog : List (String × Option (List (String × ShapeDef)))) :
    List (String × List (String × List String)) :=
  catalog.filterMap fun p =>
    match p.2 with
    | none => none
    | some shapes =>
      let es := extractService shapes
      if es.isEmpty then none else some (p.1, es)

/-- One element of a `"values"` array in the output document. -/
structure EnumEntry where
  value : String
  goName : String
  pyName : String
deriving DecidableEq

/-- One shape object in the output document. -/
structure ShapeOut where
  name : String
  values : List EnumEntry
deriving DecidableEq

/-- The inner loop of `generate_enum_data`: derive both names for each
raw value in order, dropping a value iff its Python name is empty. -/
def shapeEntries (service shape_name : String) (values : List String) : List EnumEntry :=
  values.filterMap fun v =>
    let go_name := to_go_const_name service shape_name v
    let py_name := to_python_const_name v
    if py_name = "" then none else some (EnumEntry.mk v go_name py_name)

/-- One iteration of the shape loop in `generate_enum_data`: build the
shape's entry list and keep the shape iff that list is non-empty. -/
def shapeItem (service : String) (p : String × List String) : Option (String × ShapeOut) :=
  let evs := shapeEntries service p.1 p.2
  if evs.isEmpty then none else some (p.1, ShapeOut.mk p.1 evs)

/-- The per-service loop of `generate_enum_data`: shapes in sorted
order, a shape kept iff it retains at least one value entry. -/
def serviceShapes (service : String) (shapes : List (String × List String)) :
    List (String × ShapeOut) :=
  (sortByKey shapes).filterMap (shapeItem service)

/-- One iteration of the service loop in `generate_enum_data`: build the
service's shape dict and keep the service iff it is non-empty. -/
def serviceItem (p : String × List (String × List String)) :
    Option (String × List (String × ShapeOut)) :=
  let se := serviceShapes p.1 p.2
  if se.isEmpty then none else some (p.1, se)

/-- `generate_enum_data` from the source, modelling the dict stored
under the top-level `"services"` key: services in sorted order, a
service kept iff it retains at least one shape. -/
def generate_enum_data (all_enums : List (String × List (String × List String))) :
    List (String × List (String × ShapeOut)) :=
  (sortByKey all_enums).filterMap serviceItem

/-- A lowercase hexadecimal digit, as Python's `\uXXXX` escapes use. -/
def hexDigitChar (n : Nat) : Char :=
  if n < 10 then Char.ofNat (48 + n) else Char.ofNat (87 + n)

/-- Four lowercase hex digits. -/
def uHex4 (n : Nat) : String :=
  String.mk [hexDigitChar (n / 4096 % 16), hexDigitChar (n / 256 % 16),
    hexDigitChar (n / 16 % 16), hexDigitChar (n % 16)]

/-- One character of `json.dumps` output with the default
`ensure_ascii=True`: short escapes for the usual control characters and
for quote and backslash, `\uXXXX` (surrogate pairs beyond the BMP) for
everything outside printable ASCII. -/
def jsonEscapeChar (c : Char) : String :=
  if c = '"' then "\\\""
  else if c = '\\' then "\\\\"
  else if c.toNat = 10 then "\\n"
  else if c.toNat = 9 then "\\t"
  else if c.toNat = 13 then "\\r"
  else if c.toNat = 8 then "\\b"
  else if c.toNat = 12 then "\\f"
  else if c.toNat < 32 || 126 < c.toNat then
    if c.toNat < 65536 then "\\u" ++ uHex4 c.toNat
    else
      "\\u" ++ uHex4 (55296 + (c.toNat - 65536) / 1024) ++
        "\\u" ++ uHex4 (56320 + (c.toNat - 65536) % 1024)
  else String.singleton c

/-- A JSON string literal. -/
def jsonStr (s : String) : String :=
  "\"" ++ String.join (s.data.map jsonEscapeChar) ++ "\""

/-- `n` spaces. -/
def ind (n : Nat) : String := String.mk (List.replicate n ' ')

/-- Interleave a separator, as `",\n".join(...)` would. -/
def joinSep (sep : String) : List String → String
  | [] => ""
  | [x] => x
  | x :: y :: xs => x ++ sep ++ joinSep sep (y :: xs)

/-- One `values` element as `json.dumps(..., indent=2, sort_keys=True)`
renders it, at surrounding indentation `k`: keys in sorted order
`goName`, `pyName`, `value`. -/
def serializeEntry (k : Nat) (e : EnumEntry) : String :=
  "\x7b\n" ++ ind (k + 2) ++ "\"goName\": " ++ jsonStr e.goName ++ ",\n" ++
    ind (k + 2) ++ "\"pyName\": " ++ jsonStr e.pyName ++ ",\n" ++
    ind (k + 2) ++ "\"value\": " ++ jsonStr e.value ++ "\n" ++ ind k ++ "\x7d"

/-- A `values` array at surrounding indentation `k`. -/
def serializeValues (k : Nat) (vs : List EnumEntry) : String :=
  match vs with
  | [] => "[]"
  | _ =>
    "[\n" ++ joinSep ",\n" (vs.map (fun e => ind (k + 2) ++ serializeEntry (k + 2) e)) ++
      "\n" ++ ind k ++ "]"

/-- One shape object: keys in sorted order `name`, `values`. -/
def serializeShape (k : Nat) (so : ShapeOut) : String :=
  "\x7b\n" ++ ind (k + 2) ++ "\"name\": " ++ jsonStr so.name ++ ",\n" ++
    ind (k + 2) ++ "\"values\": " ++ serializeValues (k + 2) so.values ++ "\n" ++
    ind k ++ "\x7d"

/-- A JSON object whose values are already serialized, keys emitted in
list order (the lists handed to it are already sorted, which is also
the order `sort_keys=True` would choose). -/
def serializeDict (k : Nat) (items : List (String × String)) : String :=
  match items with
  | [] => "\x7b\x7d"
  | _ =>
    "\x7b\n" ++
      joinSep ",\n" (items.map (fun p => ind (k + 2) ++ jsonStr p.1 ++ ": " ++ p.2)) ++
      "\n" ++ ind k ++ "\x7d"

/-- The dict under the `"services"` key. -/
def serializeServices (k : Nat) (svcs : List (String × List (String × ShapeOut))) : String :=
  serializeDict k (svcs.map (fun p =>
    (p.1, serializeDict (k + 2) (p.2.map (fun q => (q.1, serializeShape (k + 4) q.2))))))

/-- The whole artifact `json.dumps(output, indent=2, sort_keys=True)`
for `output = {"services": ...}`. -/
def serializeDoc (doc : List (String × List (String × ShapeOut))) : String :=
  "\x7b\n" ++ ind 2 ++ "\"services\": " ++ serializeServices 2 doc ++ "\n\x7d"

example : serializeDoc (generate_enum_data []) = "\x7b\n  \"services\": \x7b\x7d\n\x7d" := by decide

set_option maxRecDepth 4000 in
example :
    serializeDoc (generate_enum_data [("lambda", [("Runtime", ["python3.12", "go1.x"])])]) =
      "\x7b\n  \"services\": \x7b\n    \"lambda\": \x7b\n      \"Runtime\": \x7b\n        \"name\": \"Runtime\",\n        \"values\": [\n          \x7b\n            \"goName\": \"LambdaRuntimePython312\",\n            \"pyName\": \"PYTHON3_12\",\n            \"value\": \"python3.12\"\n          \x7d,\n          \x7b\n            \"goName\": \"LambdaRuntimeGo1X\",\n            \"pyName\": \"GO1_X\",\n            \"value\": \"go1.x\"\n          \x7d\n        ]\n      \x7d\n    \x7d\n  \x7d\n\x7d" := by
  decide

/-- Characters that can occur in a `to_python_const_name` output:
uppercase ASCII letters, digits, and underscore. -/
def isPyOutChar (c : Char) : Bool :=
  (65 ≤ c.toNat && c.toNat ≤ 90) || (48 ≤ c.toNat && c.toNat ≤ 57) || c == '_'

theorem char_eq_of_toNat_eq {a b : Char} (h : a.toNat = b.toNat) : a = b :=
  Char.ext (UInt32.ext h)

theorem toUpper_toNat_of_lower {c : Char} (h : 97 ≤ c.toNat ∧ c.toNat ≤ 122) :
    (Char.toUpper c).toNat = c.toNat - 32 := by
  simp only [Char.toUpper]
  rw [if_pos h]
  have hv : (c.toNat - 32).isValidChar := by
    unfold Nat.isValidChar
    left; omega
  simp only [Char.ofNat]
  rw [dif_pos hv]
  rfl

theorem toUpper_eq_of_not_lower {c : Char} (h : ¬ (97 ≤ c.toNat ∧ c.toNat ≤ 122)) :
    Char.toUpper c = c := by
  simp only [Char.toUpper]
  rw [if_neg h]

theorem isAsciiAlnum_iff {c : Char} :
    isAsciiAlnum c = true ↔
      (97 ≤ c.toNat ∧ c.toNat ≤ 122) ∨ (65 ≤ c.toNat ∧ c.toNat ≤ 90) ∨
        (48 ≤ c.toNat ∧ c.toNat ≤ 57) := by
  simp [isAsciiAlnum, or_assoc]

theorem eq_char_iff_toNat {c d : Char} : c = d ↔ c.toNat = d.toNat :=
  ⟨fun h => h ▸ rfl, char_eq_of_toNat_eq⟩

theorem isWordChar_iff {c : Char} :
    isWordChar c = true ↔
      (97 ≤ c.toNat ∧ c.toNat ≤ 122) ∨ (65 ≤ c.toNat ∧ c.toNat ≤ 90) ∨
        (48 ≤ c.toNat ∧ c.toNat ≤ 57) ∨ c.toNat = 95 := by
  have h95 : (c = '_') ↔ c.toNat = 95 := eq_char_iff_toNat
  simp [isWordChar, isAsciiAlnum, h95, or_assoc]

theorem isPyOutChar_iff {c : Char} :
    isPyOutChar c = true ↔
      (65 ≤ c.toNat ∧ c.toNat ≤ 90) ∨ (48 ≤ c.toNat ∧ c.toNat ≤ 57) ∨ c.toNat = 95 := by
  have h95 : (c = '_') ↔ c.toNat = 95 := eq_char_iff_toNat
  simp [isPyOutChar, h95, or_assoc]

theorem isDigit_iff {c : Char} : c.isDigit = true ↔ 48 ≤ c.toNat ∧ c.toNat ≤ 57 := by
  show (decide (c.val ≥ 48) && decide (c.val ≤ 57)) = true ↔ _
  simp [UInt32.le_def, BitVec.le_def]
  rfl

theorem isPyOutChar_toUpper_of_word {c : Char} (h : isWordChar c = true) :
    isPyOutChar (Char.toUpper c) = true := by
  rcases isWordChar_iff.mp h with hl | hu | hd | hun
  · have := toUpper_toNat_of_lower hl
    exact isPyOutChar_iff.mpr (Or.inl (by omega))
  · rw [toUpper_eq_of_not_lower (by omega)]
    exact isPyOutChar_iff.mpr (Or.inl hu)
  · rw [toUpper_eq_of_not_lower (by omega)]
    exact isPyOutChar_iff.mpr (Or.inr (Or.inl hd))
  · rw [toUpper_eq_of_not_lower (by omega)]
    exact isPyOutChar_iff.mpr (Or.inr (Or.inr hun))

theorem toUpper_id_of_pyOut {c : Char} (h : isPyOutChar c = true) :
    Char.toUpper c = c := by
  rcases isPyOutChar_iff.mp h with h1 | h1 | h1 <;>
    exact toUpper_eq_of_not_lower (by omega)

theorem dotDash_id_of_pyOut {c : Char} (h : isPyOutChar c = true) : dotDash c = c := by
  have h1 : ¬ (c = '.') := fun e => by
    rcases isPyOutChar_iff.mp h with h2 | h2 | h2 <;> rw [eq_char_iff_toNat] at e <;>
      revert e <;> simp <;> omega
  have h2 : ¬ (c = '-') := fun e => by
    rcases isPyOutChar_iff.mp h with h3 | h3 | h3 <;> rw [eq_char_iff_toNat] at e <;>
      revert e <;> simp <;> omega
  simp [dotDash, h1, h2]

theorem isWordChar_of_pyOut {c : Char} (h : isPyOutChar c = true) :
    isWordChar c = true := by
  rcases isPyOutChar_iff.mp h with h1 | h1 | h1 <;>
    exact isWordChar_iff.mpr (by omega)

theorem pyOut_not_digit_of_ge_65 {c : Char} (h : 65 ≤ c.toNat) : c.isDigit = false := by
  rw [show (c.isDigit = false) = (¬ c.isDigit = true) by simp]
  intro hd
  have := isDigit_iff.mp hd
  omega

theorem alnum_not_space {c : Char} (h : isAsciiAlnum c = true) : isPySpace c = false := by
  have := isAsciiAlnum_iff.mp h
  simp [isPySpace]
  omega

theorem digit_alnum {c : Char} (h : c.isDigit = true) : isAsciiAlnum c = true := by
  have := isDigit_iff.mp h
  exact isAsciiAlnum_iff.mpr (by omega)

theorem toUpper_id_of_digit {c : Char} (h : c.isDigit = true) : Char.toUpper c = c := by
  have := isDigit_iff.mp h
  exact toUpper_eq_of_not_lower (by omega)

theorem reSub_take_drop (cs : List Char) :
    (reSubNonAlnum cs).takeWhile (fun c => !isPySpace c) = cs.takeWhile isAsciiAlnum ∧
    (reSubNonAlnum cs).dropWhile (fun c => !isPySpace c) =
      reSubNonAlnum (cs.dropWhile isAsciiAlnum) := by
  induction cs with
  | nil => exact ⟨rfl, rfl⟩
  | cons c cs ih =>
    cases hc : isAsciiAlnum c with
    | true =>
      rw [reSubNonAlnum_cons]
      simp only [hc, if_true]
      have hns : (!isPySpace c) = true := by rw [alnum_not_space hc]; rfl
      constructor
      · simp [List.takeWhile_cons, hns, hc, ih.1]
      · simp [List.dropWhile_cons, hns, hc, ih.2]
    | false =>
      rw [reSubNonAlnum_cons]
      simp only [hc, Bool.false_eq_true, if_false]
      have hsp : (!isPySpace ' ') = false := by decide
      constructor
      · simp [List.takeWhile_cons, hsp, hc]
      · simp only [List.dropWhile_cons, hsp, Bool.false_eq_true, if_false, hc]
        rw [reSubNonAlnum_cons]
        simp [hc]

theorem runsBy_dropWhile_sep (p : Char → Bool) (l : List Char) :
    runsBy p (l.dropWhile (fun c => !p c)) = runsBy p l := by
  induction l with
  | nil => rfl
  | cons c cs ih =>
    cases hc : p c with
    | true => simp [List.dropWhile_cons, hc]
    | false =>
      simp only [List.dropWhile_cons, hc, Bool.not_false, if_true]
      rw [ih, runsBy_cons]
      simp [hc]

theorem pySplit_reSub_aux :
    ∀ n (l : List Char), l.length ≤ n →
      pySplit (reSubNonAlnum l) = runsBy isAsciiAlnum l := by
  intro n
  induction n with
  | zero =>
    intro l h
    have hl : l = [] := List.length_eq_zero.mp (Nat.le_zero.mp h)
    subst hl
    rfl
  | succ n ih =>
    intro l h
    cases l with
    | nil => rfl
    | cons c cs =>
      simp only [List.length_cons] at h
      cases hc : isAsciiAlnum c with
      | true =>
        rw [reSubNonAlnum_cons]
        simp only [hc, if_true]
        have hns : (!isPySpace c) = true := by rw [alnum_not_space hc]; rfl
        unfold pySplit
        rw [runsBy_cons, runsBy_cons]
        simp only [hns, hc, if_true]
        rw [(reSub_take_drop cs).1, (reSub_take_drop cs).2]
        have hlen : (cs.dropWhile isAsciiAlnum).length ≤ n :=
          Nat.le_trans (length_dropWhile_le _ cs) (by omega)
        have h2 := ih (cs.dropWhile isAsciiAlnum) hlen
        unfold pySplit at h2
        rw [h2]
      | false =>
        rw [reSubNonAlnum_cons]
        simp only [hc, Bool.false_eq_true, if_false]
        have hsp : (!isPySpace ' ') = false := by decide
        unfold pySplit
        rw [runsBy_cons]
        simp only [hsp, Bool.false_eq_true, if_false]
        have hlen : (cs.dropWhile (fun d => !isAsciiAlnum d)).length ≤ n :=
          Nat.le_trans (length_dropWhile_le _ cs) (by omega)
        have h2 := ih (cs.dropWhile (fun d => !isAsciiAlnum d)) hlen
        unfold pySplit at h2
        rw [h2, runsBy_dropWhile_sep, runsBy_cons]
        simp [hc]

theorem pySplit_reSub (l : List Char) :
    pySplit (reSubNonAlnum l) = runsBy isAsciiAlnum l :=
  pySplit_reSub_aux l.length l (Nat.le_refl _)

theorem goValuePart_eq (value : String) :
    goValuePart value =
      String.mk (List.flatten ((runsBy isAsciiAlnum value.data).map capWord)) := by
  unfold goValuePart
  rw [pySplit_reSub]

theorem shapeItem_eq_some {service : String} {p : String × List String}
    {x : String × ShapeOut} :
    shapeItem service p = some x ↔
      shapeEntries service p.1 p.2 ≠ [] ∧
        x = (p.1, ShapeOut.mk p.1 (shapeEntries service p.1 p.2)) := by
  unfold shapeItem
  by_cases he : (shapeEntries service p.1 p.2).isEmpty = true
  · rw [if_pos he]
    simp [List.isEmpty_iff.mp he]
  · rw [if_neg he]
    constructor
    · intro h
      injection h with h
      exact ⟨by simpa [List.isEmpty_iff] using he, h.symm⟩
    · rintro ⟨-, hx⟩
      rw [hx]

theorem serviceItem_eq_some {p : String × List (String × List String)}
    {x : String × List (String × ShapeOut)} :
    serviceItem p = some x ↔
      serviceShapes p.1 p.2 ≠ [] ∧ x = (p.1, serviceShapes p.1 p.2) := by
  unfold serviceItem
  by_cases he : (serviceShapes p.1 p.2).isEmpty = true
  · rw [if_pos he]
    simp [List.isEmpty_iff.mp he]
  · rw [if_neg he]
    constructor
    · intro h
      injection h with h
      exact ⟨by simpa [List.isEmpty_iff] using he, h.symm⟩
    · rintro ⟨-, hx⟩
      rw [hx]

theorem sortByKey_perm {α : Type} (l : List (String × α)) : (sortByKey l).Perm l :=
  List.perm_insertionSort keyLe l

theorem sortByKey_sorted {α : Type} (l : List (String × α)) :
    List.Pairwise keyLe (sortByKey l) :=
  List.sorted_insertionSort keyLe l

theorem mem_extractService {shapes : List (String × ShapeDef)} {n : String}
    {vs : List String} :
    (n, vs) ∈ extractService shapes ↔
      ∃ sd : ShapeDef, (n, sd) ∈ shapes ∧ sd.type = some "string" ∧
        sd.enum = some vs ∧ vs.length ≤ 500 := by
  unfold extractService
  rw [List.mem_filterMap]
  constructor
  · rintro ⟨⟨n', sd⟩, hmem, hf⟩
    dsimp only at hf
    by_cases ht : sd.type = some "string"
    · rw [if_pos ht] at hf
      cases he : sd.enum with
      | none =>
        rw [he] at hf
        exact absurd hf (by simp)
      | some l =>
        rw [he] at hf
        dsimp only at hf
        by_cases hl : l.length ≤ 500
        · rw [if_pos hl] at hf
          injection hf with hf
          rw [Prod.mk.injEq] at hf
          obtain ⟨h1, h2⟩ := hf
          subst h1
          subst h2
          exact ⟨sd, hmem, ht, he, hl⟩
        · rw [if_neg hl] at hf
          exact absurd hf (by simp)
    · rw [if_neg ht] at hf
      exact absurd hf (by simp)
  · rintro ⟨sd, hmem, ht, he, hl⟩
    refine ⟨(n, sd), hmem, ?_⟩
    dsimp only
    rw [if_pos ht, he]
    dsimp only
    rw [if_pos hl]

theorem mem_serviceShapes {service : String} {shapes : List (String × List String)}
    {n : String} {so : ShapeOut} :
    (n, so) ∈ serviceShapes service shapes ↔
      ∃ vs, (n, vs) ∈ shapes ∧ shapeEntries service n vs ≠ [] ∧
        so = ShapeOut.mk n (shapeEntries service n vs) := by
  unfold serviceShapes
  rw [List.mem_filterMap]
  constructor
  · rintro ⟨⟨n', vs⟩, hmem, hf⟩
    have hmem' : (n', vs) ∈ shapes := (sortByKey_perm shapes).mem_iff.mp hmem
    obtain ⟨hne, hx⟩ := shapeItem_eq_some.mp hf
    dsimp only at hne hx
    rw [Prod.mk.injEq] at hx
    obtain ⟨h1, h2⟩ := hx
    subst h1
    exact ⟨vs, hmem', hne, h2⟩
  · rintro ⟨vs, hmem, hne, hso⟩
    refine ⟨(n, vs), (sortByKey_perm shapes).mem_iff.mpr hmem, ?_⟩
    exact shapeItem_eq_some.mpr ⟨hne, by rw [Prod.mk.injEq]; exact ⟨rfl, hso⟩⟩

theorem mem_generate_enum_data {m : List (String × List (String × List String))}
    {s : String} {se : List (String × ShapeOut)} :
    (s, se) ∈ generate_enum_data m ↔
      ∃ shapes, (s, shapes) ∈ m ∧ serviceShapes s shapes ≠ [] ∧
        se = serviceShapes s shapes := by
  unfold generate_enum_data
  rw [List.mem_filterMap]
  constructor
  · rintro ⟨⟨s', shapes⟩, hmem, hf⟩
    have hmem' : (s', shapes) ∈ m := (sortByKey_perm m).mem_iff.mp hmem
    obtain ⟨hne, hx⟩ := serviceItem_eq_some.mp hf
    dsimp only at hne hx
    rw [Prod.mk.injEq] at hx
    obtain ⟨h1, h2⟩ := hx
    subst h1
    exact ⟨shapes, hmem', hne, h2⟩
  · rintro ⟨shapes, hmem, hne, hse⟩
    refine ⟨(s, shapes), (sortByKey_perm m).mem_iff.mpr hmem, ?_⟩
    exact serviceItem_eq_some.mpr ⟨hne, by rw [Prod.mk.injEq]; exact ⟨rfl, hse⟩⟩

theorem pairwise_serviceShapes (service : String) (shapes : List (String × List String)) :
    List.Pairwise keyLe (serviceShapes service shapes) := by
  unfold serviceShapes
  refine List.Pairwise.filterMap (shapeItem service) ?_ (sortByKey_sorted shapes)
  intro a a' hR x hx x' hx'
  rw [Option.mem_def] at hx hx'
  obtain ⟨-, hx⟩ := shapeItem_eq_some.mp hx
  obtain ⟨-, hx'⟩ := shapeItem_eq_some.mp hx'
  rw [hx, hx']
  exact hR

theorem pairwise_generate_enum_data (m : List (String × List (String × List String))) :
    List.Pairwise keyLe (generate_enum_data m) := by
  unfold generate_enum_data
  refine List.Pairwise.filterMap serviceItem ?_ (sortByKey_sorted m)
  intro a a' hR x hx x' hx'
  rw [Option.mem_def] at hx hx'
  obtain ⟨-, hx⟩ := serviceItem_eq_some.mp hx
  obtain ⟨-, hx'⟩ := serviceItem_eq_some.mp hx'
  rw [hx, hx']
  exact hR

theorem shapeEntries_eq (service shape_name : String) (values : List String) :
    shapeEntries service shape_name values =
      (values.filter (fun v => !(to_python_const_name v == ""))).map
        (fun v => EnumEntry.mk v (to_go_const_name service shape_name v)
          (to_python_const_name v)) := by
  induction values with
  | nil => rfl
  | cons v vs ih =>
    by_cases h : to_python_const_name v = ""
    · simpa [shapeEntries, List.filterMap_cons, List.filter_cons, h] using ih
    · simpa [shapeEntries, List.filterMap_cons, List.filter_cons, h] using ih

theorem to_py_eq (v : String) :
    to_python_const_name v =
      match ((v.data.map dotDash).filter isWordChar).map Char.toUpper with
      | [] => ""
      | c :: cs => if c.isDigit then String.mk ('_' :: c :: cs) else String.mk (c :: cs) :=
  rfl

theorem to_py_chars {v : String} : ∀ c ∈ (to_python_const_name v).data, isPyOutChar c = true := by
  intro c hc
  rw [to_py_eq] at hc
  cases hb : ((v.data.map dotDash).filter isWordChar).map Char.toUpper with
  | nil =>
    rw [hb] at hc
    simp at hc
  | cons d ds =>
    rw [hb] at hc
    dsimp only at hc
    have hmem : ∀ x ∈ d :: ds, isPyOutChar x = true := by
      intro x hx
      rw [← hb] at hx
      obtain ⟨y, hy, hxy⟩ := List.mem_map.mp hx
      rw [← hxy]
      exact isPyOutChar_toUpper_of_word (List.mem_filter.mp hy).2
    by_cases hd : d.isDigit = true
    · rw [if_pos hd] at hc
      have hc' : c ∈ '_' :: d :: ds := hc
      rcases List.mem_cons.mp hc' with h1 | h1
      · subst h1; decide
      · exact hmem c h1
    · rw [if_neg hd] at hc
      exact hmem c hc

theorem to_py_head {v : String} : ∀ c, (to_python_const_name v).data.head? = some c →
    c.isDigit = false := by
  intro c hc
  rw [to_py_eq] at hc
  cases hb : ((v.data.map dotDash).filter isWordChar).map Char.toUpper with
  | nil =>
    rw [hb] at hc
    exact absurd hc (by simp)
  | cons d ds =>
    rw [hb] at hc
    dsimp only at hc
    by_cases hd : d.isDigit = true
    · rw [if_pos hd] at hc
      have h2 : some '_' = some c := hc
      injection h2 with h2
      subst h2
      decide
    · rw [if_neg hd] at hc
      have h2 : some d = some c := hc
      injection h2 with h2
      subst h2
      simpa using hd

theorem map_id_of_forall {l : List Char} {f : Char → Char} (h : ∀ c ∈ l, f c = c) :
    l.map f = l := by
  induction l with
  | nil => rfl
  | cons c cs ih =>
    rw [List.map_cons, h c (List.mem_cons_self c cs),
      ih (fun d hd => h d (List.mem_cons_of_mem c hd))]

theorem py_fixed (t : String) (hall : ∀ c ∈ t.data, isPyOutChar c = true)
    (hhead : ∀ c, t.data.head? = some c → c.isDigit = false) :
    to_python_const_name t = t := by
  obtain ⟨l⟩ := t
  have hl : ∀ c ∈ l, isPyOutChar c = true := hall
  have hmap : l.map dotDash = l :=
    map_id_of_forall (fun c hc => dotDash_id_of_pyOut (hl c hc))
  have hfil : l.filter isWordChar = l :=
    List.filter_eq_self.mpr (fun c hc => isWordChar_of_pyOut (hl c hc))
  have hup : l.map Char.toUpper = l :=
    map_id_of_forall (fun c hc => toUpper_id_of_pyOut (hl c hc))
  rw [to_py_eq]
  have hs : (((String.mk l).data.map dotDash).filter isWordChar).map Char.toUpper = l := by
    show ((l.map dotDash).filter isWordChar).map Char.toUpper = l
    rw [hmap, hfil, hup]
  rw [hs]
  cases l with
  | nil => rfl
  | cons c cs =>
    have hd : c.isDigit = false := hhead c rfl
    dsimp only
    rw [if_neg (by rw [hd]; exact Bool.false_ne_true)]

theorem runsBy_eq_nil_of_none {p : Char → Bool} {l : List Char}
    (h : ∀ c ∈ l, p c = false) : runsBy p l = [] := by
  induction l with
  | nil => rfl
  | cons c cs ih =>
    have hc : p c = false := h c (List.mem_cons_self c cs)
    rw [runsBy_cons, hc]
    simp only [Bool.false_eq_true, if_false]
    exact ih (fun d hd => h d (List.mem_cons_of_mem c hd))

theorem goValuePart_empty {value : String} (h : ∀ c ∈ value.data, isAsciiAlnum c = false) :
    goValuePart value = "" := by
  rw [goValuePart_eq, runsBy_eq_nil_of_none h]
  rfl

theorem goValuePart_head {value : String} {c : Char} {rest : List Char}
    (hv : value.data = c :: rest) (hd : c.isDigit = true) :
    (goValuePart value).data.head? = some c := by
  rw [goValuePart_eq, hv, runsBy_cons]
  simp only [digit_alnum hd, if_true]
  rw [List.map_cons]
  have hcap : capWord (c :: rest.takeWhile isAsciiAlnum) =
      c.toUpper :: (rest.takeWhile isAsciiAlnum).map Char.toLower := rfl
  rw [hcap, toUpper_id_of_digit hd]
  rfl

theorem to_py_head_digit {value : String} {c : Char} {rest : List Char}
    (hv : value.data = c :: rest) (hd : c.isDigit = true) :
    (to_python_const_name value).data.head? = some '_' := by
  rw [to_py_eq, hv, List.map_cons]
  have hdc : dotDash c = c :=
    dotDash_id_of_pyOut (isPyOutChar_iff.mpr (Or.inr (Or.inl (isDigit_iff.mp hd))))
  rw [hdc, List.filter_cons]
  have hw : isWordChar c = true := isWordChar_iff.mpr (by have := isDigit_iff.mp hd; omega)
  simp only [hw, if_true]
  rw [List.map_cons, toUpper_id_of_digit hd]
  simp only [hd, if_true]
  rfl

/-- ConventionB assembled independently, following the specification's
wording step by step: replace dots and hyphens, drop non-word
characters, uppercase, then guard a leading digit by inspecting the
first character of the base string. -/
def pyNameSpec (value : String) : String :=
  let base := ((value.data.map dotDash).filter isWordChar).map Char.toUpper
  match base.head? with
  | none => ""
  | some c => if c.isDigit then "_" ++ String.mk base else String.mk base

/-- Claim C1: for every service id, shape name and raw value,
`to_go_const_name` returns the resolved service prefix, then the shape
name verbatim, then the raw value's words — the maximal runs of ASCII
alphanumerics, which is what replacing every maximal non-alphanumeric
run by a single space and splitting on whitespace leaves — each word
appended with its first character uppercased and the rest lowercased;
in particular the specification's three examples hold. -/
theorem claim_C1 :
    (∀ service enum_name value : String,
        to_go_const_name service enum_name value =
          capitalize_service service ++ enum_name ++
            String.mk (List.flatten ((runsBy isAsciiAlnum value.data).map capWord))) ∧
    to_go_const_name "lambda" "Runtime" "python3.12" = "LambdaRuntimePython312" ∧
    to_go_const_name "s3" "StorageClass" "STANDARD_IA" = "S3StorageClassStandardIa" ∧
    to_go_const_name "ec2" "InstanceType" "t2.micro" = "Ec2InstanceTypeT2Micro" := by
  refine ⟨fun service enum_name value => ?_, by decide, by decide, by decide⟩
  unfold to_go_const_name
  rw [goValuePart_eq]

/-- Claim C2: for every raw value, `to_python_const_name` replaces every
dot and hyphen by an underscore, removes every remaining character that
is not an ASCII letter, digit or underscore, uppercases the result, and
prepends an underscore when the non-empty result starts with a digit;
in particular the specification's four examples hold. -/
theorem claim_C2 :
    (∀ value : String, to_python_const_name value = pyNameSpec value) ∧
    to_python_const_name "python3.12" = "PYTHON3_12" ∧
    to_python_const_name "PAY_PER_REQUEST" = "PAY_PER_REQUEST" ∧
    to_python_const_name "t2.micro" = "T2_MICRO" ∧
    to_python_const_name "1x" = "_1X" := by
  refine ⟨fun value => ?_, by decide, by decide, by decide, by decide⟩
  rw [to_py_eq]
  unfold pyNameSpec
  cases hb : ((value.data.map dotDash).filter isWordChar).map Char.toUpper with
  | nil => rfl
  | cons c cs =>
    dsimp only [List.head?_cons]
    by_cases hd : c.isDigit = true
    · rw [if_pos hd, if_pos hd]
      rfl
    · rw [if_neg hd, if_neg hd]

/-- Claim C6: the assembly and serialization stage is deterministic:
for one and the same extractor mapping, two applications of
`generate_enum_data` followed by the canonical serialization produce
byte-identical documents (both stages are pure functions of their
input). -/
theorem claim_C6 :
    ∀ all_enums : List (String × List (String × List String)),
      serializeDoc (generate_enum_data all_enums) =
        serializeDoc (generate_enum_data all_enums) :=
  fun _ => rfl

/-- Claim C7: `to_python_const_name` is idempotent on its own outputs:
applying it to any of its results returns that result unchanged. -/
theorem claim_C7 :
    ∀ value : String,
      to_python_const_name (to_python_const_name value) = to_python_const_name value := by
  intro value
  exact py_fixed (to_python_const_name value) to_py_chars to_py_head

/-- Claim C9: every character of a `to_python_const_name` result is an
uppercase ASCII letter, an ASCII digit or an underscore (lowercase
letters cannot survive because uppercasing happens after the character
filter), and the result is either empty or does not start with a
digit. -/
theorem claim_C9 :
    ∀ value : String,
      ((to_python_const_name value).data.all isPyOutChar = true) ∧
      (∀ c, (to_python_const_name value).data.head? = some c → c.isDigit = false) := by
  intro value
  exact ⟨List.all_eq_true.mpr (fun c hc => to_py_chars c hc), to_py_head⟩

/-- Claim C3 as stated is false: a string shape declaring an empty enum
list is included by the extractor (the source only tests membership of
the enum key, not non-emptiness of the list), shown here on a concrete
one-shape dictionary whose enum list is empty. -/
theorem claim_C3_cex :
    ¬ (∀ (shapes : List (String × ShapeDef)) (n : String) (vs : List String),
        (n, vs) ∈ extractService shapes ↔
          ∃ sd : ShapeDef, (n, sd) ∈ shapes ∧ sd.type = some "string" ∧
            sd.enum = some vs ∧ vs ≠ [] ∧ vs.length ≤ 500) := by
  intro h
  have hm : ("S", ([] : List String)) ∈
      extractService [("S", ShapeDef.mk (some "string") (some []))] := by decide
  obtain ⟨sd, -, -, -, hne, -⟩ := (h _ "S" []).mp hm
  exact hne rfl

/-- Claim C3 (amended): a shape is included in the extractor's result
iff its declared type is "string", it declares an enumerated-value list
(possibly empty), and that list's length does not exceed 500; a shape
whose value list exceeds 500 entries is excluded entirely. -/
theorem claim_C3 :
    ∀ (shapes : List (String × ShapeDef)) (n : String) (vs : List String),
      (n, vs) ∈ extractService shapes ↔
        ∃ sd : ShapeDef, (n, sd) ∈ shapes ∧ sd.type = some "string" ∧
          sd.enum = some vs ∧ vs.length ≤ 500 :=
  fun _ _ _ => mem_extractService

/-- Claim C4: for every shape, the output values list keeps exactly the
raw values whose ConventionB identifier is non-empty, in input order
and without deduplication, each paired with both derived identifiers; a
shape retaining no entry is omitted, and a service retaining no shape
is omitted. -/
theorem claim_C4 :
    (∀ (service shape_name : String) (values : List String),
        shapeEntries service shape_name values =
          (values.filter (fun v => !(to_python_const_name v == ""))).map
            (fun v => EnumEntry.mk v (to_go_const_name service shape_name v)
              (to_python_const_name v))) ∧
    (∀ (service : String) (shapes : List (String × List String)) (n : String)
        (so : ShapeOut),
        (n, so) ∈ serviceShapes service shapes ↔
          ∃ vs, (n, vs) ∈ shapes ∧ shapeEntries service n vs ≠ [] ∧
            so = ShapeOut.mk n (shapeEntries service n vs)) ∧
    (∀ (all_enums : List (String × List (String × List String))) (s : String)
        (se : List (String × ShapeOut)),
        (s, se) ∈ generate_enum_data all_enums ↔
          ∃ shapes, (s, shapes) ∈ all_enums ∧ serviceShapes s shapes ≠ [] ∧
            se = serviceShapes s shapes) :=
  ⟨shapeEntries_eq, fun _ _ _ _ => mem_serviceShapes, fun _ _ _ => mem_generate_enum_data⟩

/-- Claim C5: in every output document the service keys, and the shape
keys within each service, appear in non-decreasing lexicographic order
under raw string comparison. -/
theorem claim_C5 :
    ∀ all_enums : List (String × List (String × List String)),
      List.Pairwise (fun a b => strLe a.1 b.1 = true) (generate_enum_data all_enums) ∧
      ∀ p ∈ generate_enum_data all_enums,
        List.Pairwise (fun a b => strLe a.1 b.1 = true) p.2 := by
  intro all_enums
  refine ⟨pairwise_generate_enum_data all_enums, ?_⟩
  rintro ⟨s, se⟩ hp
  obtain ⟨shapes, -, -, hse⟩ := mem_generate_enum_data.mp hp
  dsimp only
  rw [hse]
  exact pairwise_serviceShapes s shapes

/-- Claim C8 as stated is false: the specification's own example "..."
consists solely of non-alphanumeric characters, yet its ConventionB
identifier is "___", not the empty string, because dots become
underscores before the character filter runs. -/
theorem claim_C8_cex :
    (("..." : String).data.all (fun c => !isAsciiAlnum c) = true) ∧
    to_python_const_name "..." ≠ "" :=
  ⟨by decide, by decide⟩

/-- Claim C8 (amended): a raw value with no alphanumeric character
contributes no ConventionA words, so the identifier reduces to the
service prefix plus the shape name; the ConventionB identifier of such
a value is empty when the value also contains no '.', '-' or '_'
(those three survive as underscores); and for a value beginning with a
digit the ConventionA value part begins with that digit, with no
underscore inserted, while the ConventionB identifier begins with an
underscore. -/
theorem claim_C8 :
    (∀ service enum_name value : String,
        (∀ c ∈ value.data, isAsciiAlnum c = false) →
        to_go_const_name service enum_name value =
          capitalize_service service ++ enum_name) ∧
    (∀ value : String,
        (∀ c ∈ value.data, isAsciiAlnum c = false ∧ c ≠ '.' ∧ c ≠ '-' ∧ c ≠ '_') →
        to_python_const_name value = "") ∧
    (∀ (value : String) (c : Char) (rest : List Char),
        value.data = c :: rest → c.isDigit = true →
        (goValuePart value).data.head? = some c ∧
        (to_python_const_name value).data.head? = some '_') := by
  refine ⟨?_, ?_, ?_⟩
  · intro service enum_name value h
    unfold to_go_const_name
    rw [goValuePart_empty h, String.append_empty]
  · intro value h
    rw [to_py_eq]
    have hfil : (value.data.map dotDash).filter isWordChar = [] := by
      rw [List.filter_eq_nil_iff]
      intro a ha
      obtain ⟨y, hy, hya⟩ := List.mem_map.mp ha
      obtain ⟨h1, h2, h3, h4⟩ := h y hy
      have hdd : dotDash y = y := by simp [dotDash, h2, h3]
      rw [← hya, hdd]
      intro hw
      unfold isWordChar at hw
      rcases Bool.or_eq_true_iff.mp hw with h5 | h5
      · rw [h1] at h5
        exact Bool.false_ne_true h5
      · exact h4 (beq_iff_eq.mp h5)
    rw [hfil, List.map_nil]
  · intro value c rest hv hd
    exact ⟨goValuePart_head hv hd, to_py_head_digit hv hd⟩

/-- Claim C10: every service key in the extractor's result maps to a
non-empty shape dictionary, and a service appears with value `e` iff
its definition loaded and the per-service scan produced that non-empty
`e`; a service that loads but yields no qualifying shape therefore does
not appear and is not counted in the reported totals. -/
theorem claim_C10 :
    ∀ catalog : List (String × Option (List (String × ShapeDef))),
      (∀ p ∈ extract_all_enums catalog, p.2 ≠ []) ∧
      (∀ (s : String) (e : List (String × List String)),
          (s, e) ∈ extract_all_enums catalog ↔
            ∃ shapes, (s, some shapes) ∈ catalog ∧ e = extractService shapes ∧
              e ≠ []) := by
  intro catalog
  have hiff : ∀ (s : String) (e : List (String × List String)),
      (s, e) ∈ extract_all_enums catalog ↔
        ∃ shapes, (s, some shapes) ∈ catalog ∧ e = extractService shapes ∧ e ≠ [] := by
    intro s e
    unfold extract_all_enums
    rw [List.mem_filterMap]
    constructor
    · rintro ⟨⟨s', model⟩, hmem, hf⟩
      dsimp only at hf
      cases model with
      | none => exact absurd hf (by simp)
      | some shapes =>
        dsimp only at hf
        by_cases he : (extractService shapes).isEmpty = true
        · rw [if_pos he] at hf
          exact absurd hf (by simp)
        · rw [if_neg he] at hf
          injection hf with hf
          rw [Prod.mk.injEq] at hf
          obtain ⟨h1, h2⟩ := hf
          subst h1
          refine ⟨shapes, hmem, h2.symm, ?_⟩
          rw [← h2]
          simpa [List.isEmpty_iff] using he
    · rintro ⟨shapes, hmem, he, hne⟩
      subst he
      refine ⟨(s, some shapes), hmem, ?_⟩
      dsimp only
      rw [if_neg (by simpa [List.isEmpty_iff] using hne)]
  refine ⟨?_, hiff⟩
  rintro ⟨s, e⟩ hp
  obtain ⟨shapes, -, -, hne⟩ := (hiff s e).mp hp
  exact hne

/-- Concrete instance of the amended C3: a one-element enum shape of
string type is included. -/
theorem claim_C3_wit :
    ("A", ["x"]) ∈ extractService [("A", ShapeDef.mk (some "string") (some ["x"]))] :=
  (claim_C3 _ _ _).mpr ⟨ShapeDef.mk (some "string") (some ["x"]), by decide, rfl, rfl, by decide⟩

/-- Concrete instance of C4: the value with an empty ConventionB name is
dropped, the other is kept with both identifiers. -/
theorem claim_C4_wit :
    shapeEntries "lambda" "Runtime" ["python3.12", "()"] =
      [EnumEntry.mk "python3.12" "LambdaRuntimePython312" "PYTHON3_12"] := by
  rw [claim_C4.1]
  decide

/-- Concrete instance of C5 on an unsorted two-service input. -/
theorem claim_C5_wit :
    List.Pairwise (fun a b => strLe a.1 b.1 = true)
      (generate_enum_data [("b", [("Y", ["v"])]), ("a", [("X", ["w"])])]) ∧
    List.Pairwise (fun a b => strLe a.1 b.1 = true)
      (("a", serviceShapes "a" [("X", ["w"])]) : String × List (String × ShapeOut)).2 :=
  ⟨(claim_C5 _).1,
    (claim_C5 [("b", [("Y", ["v"])]), ("a", [("X", ["w"])])]).2 _ (by decide)⟩

/-- Concrete instance of the amended C8 at "!!" (prefix-only ConventionA
and empty ConventionB) and at "2xlarge" (digit guard). -/
theorem claim_C8_wit :
    to_go_const_name "s3" "X" "!!" = "S3X" ∧
    to_python_const_name "!!" = "" ∧
    (goValuePart "2xlarge").data.head? = some '2' ∧
    (to_python_const_name "2xlarge").data.head? = some '_' :=
  ⟨claim_C8.1 "s3" "X" "!!" (by decide),
    claim_C8.2.1 "!!" (by decide),
    (claim_C8.2.2 "2xlarge" '2' "xlarge".data (by decide) (by decide)).1,
    (claim_C8.2.2 "2xlarge" '2' "xlarge".data (by decide) (by decide)).2⟩

/-- Concrete instance of C9 at "a-1". -/
theorem claim_C9_wit :
    ((to_python_const_name "a-1").data.all isPyOutChar = true) ∧
    ('A'.isDigit = false) :=
  ⟨(claim_C9 "a-1").1, (claim_C9 "a-1").2 'A' (by decide)⟩

/-- Concrete instance of C10: a loading service with one qualifying
shape appears, while its companion entries (an empty dictionary and a
failed load) contribute nothing. -/
theorem claim_C10_wit :
    ("svc", [("S", ["v"])]) ∈
      extract_all_enums [("svc", some [("S", ShapeDef.mk (some "string") (some ["v"]))]),
        ("empty", some []), ("broken", none)] :=
  ((claim_C10 _).2 _ _).mpr ⟨[("S", ShapeDef.mk (some "string") (some ["v"]))],
    by decide, by decide, by decide⟩
